import Mathlib

/-!
Shallow embedding of the `dota-analysis` repository (two Python scripts,
`main.py` and `webscrape.py`) and proofs about the claims of its
specification.  Machine integers of the source are modelled as `Nat`,
Python lists as `List`, Python `dict`s (which preserve insertion order)
as insertion-ordered association lists, and fallible operations as
`Option`-valued functions.
-/

set_option autoImplicit false

namespace DotaAnalysis

/-! ## Match Importer (`main.py`)

The importer iterates `winnumber` over `[1, 0]`, and for every match
returned by the match-history endpoint derives the player's team side
(`main.py` lines 40-44):

    if winnumber + match["radiant_win"] == 1:
        matchdict[match["match_id"]] = False
    else:
        matchdict[match["match_id"]] = True

In Python the boolean `radiant_win` is added to the integer `winnumber`
as 1 (true) or 0 (false).
-/

/-- The team-side boolean stored into `matchdict` for a match fetched with
win filter `winnumber` whose detail says `radiant_win` (`main.py` 40-44). -/
def matchSide (winnumber : Nat) (radiant_win : Bool) : Bool :=
  if winnumber + (if radiant_win then 1 else 0) = 1 then false else true

/-- A per-player entry of the match-detail payload: the side flag
`isRadiant` and the hero identifier `hero_id` (`main.py` lines 55-57). -/
structure Player where
  isRadiant : Bool
  hero_id : Nat
deriving DecidableEq

/-- `main.py` lines 55-57: the hero ids of all players whose `isRadiant`
flag equals the derived team side, in the order the detail lists them.

    for player in matchinfo["players"]:
        if player["isRadiant"] is team:
            heroidlist += [player["hero_id"]]
-/
def heroidlist (team : Bool) (players : List Player) : List Nat :=
  (players.filter (fun p => p.isRadiant == team)).map (fun p => p.hero_id)

/-- `main.py` lines 60-63: the row inserted into `dotamatchesinfo` is
`(mID, heroidlist[0], ..., heroidlist[4])`.  Indexing a list of fewer than
five elements raises in Python; that fatal path is `none` here.  A list of
more than five elements silently drops the extras, as the source does. -/
def teammatesRecord (mID : Nat) (team : Bool) (players : List Player) :
    Option (Nat × List Nat) :=
  match heroidlist team players with
  | h1 :: h2 :: h3 :: h4 :: h5 :: _ => some (mID, [h1, h2, h3, h4, h5])
  | _ => none

/-! ### Claims C1 and C2: the derived team side -/

/-- C1 (counterexample): the claim says the side boolean is `true` iff
`winnumber + radiant_win` is odd.  At `winnumber = 1`, `radiant_win = true`
the code stores `true` although the sum `2` is even. -/
theorem matchSide_odd_counterexample :
    matchSide 1 true = true ∧
      ¬ (1 + (if (true : Bool) then 1 else 0)) % 2 = 1 := by
  decide

/-- C1 (amended): for the win filters actually used (`winnumber ∈ {0, 1}`),
the derived side boolean is `true` iff `winnumber + radiant_win` is EVEN,
i.e. iff both or neither of "player won" / "radiant won" hold. -/
theorem matchSide_parity (winnumber : Nat) (radiant_win : Bool)
    (h : winnumber ≤ 1) :
    matchSide winnumber radiant_win = true ↔
      (winnumber + (if radiant_win then 1 else 0)) % 2 = 0 := by
  interval_cases winnumber <;> cases radiant_win <;> decide

/-- C1 (witness for the amended theorem): at `winnumber = 1`,
`radiant_win = true` the hypothesis holds and the equivalence follows. -/
theorem matchSide_parity_witness :
    (1 : Nat) ≤ 1 ∧
      (matchSide 1 true = true ↔
        (1 + (if (true : Bool) then 1 else 0)) % 2 = 0) :=
  ⟨Nat.le_refl 1, matchSide_parity 1 true (Nat.le_refl 1)⟩

/-- C2: the full truth table of the derived team side: win + radiant-won
gives radiant, win + radiant-lost gives dire, loss + radiant-won gives
dire, loss + radiant-lost gives radiant. -/
theorem matchSide_truth_table :
    matchSide 1 true = true ∧ matchSide 1 false = false ∧
      matchSide 0 true = false ∧ matchSide 0 false = true := by
  decide

/-! ### Claim C3: the teammates record -/

/-- C3: when the detail payload holds exactly five players on the derived
side, the persisted `dotamatchesinfo` row carries exactly those five
players' hero ids, in the order the detail lists the players. -/
theorem teammatesRecord_of_five (mID : Nat) (team : Bool)
    (players : List Player) (p1 p2 p3 p4 p5 : Player)
    (h : players.filter (fun p => p.isRadiant == team) = [p1, p2, p3, p4, p5]) :
    teammatesRecord mID team players =
      some (mID, [p1.hero_id, p2.hero_id, p3.hero_id, p4.hero_id, p5.hero_id]) := by
  simp [teammatesRecord, heroidlist, h]

/-- C3 (witness): a six-player detail with five radiant players yields the
record of exactly those five hero ids in order. -/
theorem teammatesRecord_of_five_witness :
    ([⟨true, 11⟩, ⟨false, 99⟩, ⟨true, 12⟩, ⟨true, 13⟩, ⟨true, 14⟩, ⟨true, 15⟩] :
        List Player).filter (fun p => p.isRadiant == true) =
      [⟨true, 11⟩, ⟨true, 12⟩, ⟨true, 13⟩, ⟨true, 14⟩, ⟨true, 15⟩] ∧
    teammatesRecord 7 true
        [⟨true, 11⟩, ⟨false, 99⟩, ⟨true, 12⟩, ⟨true, 13⟩, ⟨true, 14⟩, ⟨true, 15⟩] =
      some (7, [11, 12, 13, 14, 15]) :=
  ⟨by decide,
    teammatesRecord_of_five 7 true
      [⟨true, 11⟩, ⟨false, 99⟩, ⟨true, 12⟩, ⟨true, 13⟩, ⟨true, 14⟩, ⟨true, 15⟩]
      ⟨true, 11⟩ ⟨true, 12⟩ ⟨true, 13⟩ ⟨true, 14⟩ ⟨true, 15⟩ (by decide)⟩

/-! ## Role Scraper (`webscrape.py`)

The scraper walks every `<th>` of the page, derives a role name and a
strength level from the header text, collects the titles of the `<a>`
anchors of the following `<td>`, accumulates them in the nested dict
`heroattributes`, pivots into a list of row dicts, zero-fills missing
roles and exports with pandas.  A header cell is modelled by its text
together with the anchor titles of its following data cell; Python dicts
are modelled by insertion-ordered association lists. -/

/-- The strength-marker glyph counted by `rolestring.count` in
`webscrape.py` line 16. -/
def glyph : Char := '■'

/-- Python `str.count` for a single-character pattern: the number of
occurrences of `c` in the text. -/
def pyCountChar (c : Char) : List Char → Nat
  | [] => 0
  | x :: xs => (if x = c then 1 else 0) + pyCountChar c xs

/-- Python `str.replace(c, "")` for a single-character pattern: the text
with every occurrence of `c` removed. -/
def pyRemoveChar (c : Char) : List Char → List Char
  | [] => []
  | x :: xs => if x = c then pyRemoveChar c xs else x :: pyRemoveChar c xs

/-- Python `str.strip()`: drop leading and trailing whitespace. -/
def pyStrip (s : String) : String :=
  String.mk (((s.data.dropWhile Char.isWhitespace).reverse.dropWhile
    Char.isWhitespace).reverse)

/-- `webscrape.py` line 16: `level = rolestring.count("■")`. -/
def levelOf (rolestring : String) : Nat :=
  pyCountChar glyph rolestring.data

/-- `webscrape.py` line 17: `role = rolestring.replace("■", "").strip()`. -/
def roleOf (rolestring : String) : String :=
  pyStrip (String.mk (pyRemoveChar glyph rolestring.data))

/-- Lookup in an insertion-ordered association list (Python `d[k]` /
`k in d`, which finds the unique entry for a present key). -/
def getA {α β : Type} [DecidableEq α] (k : α) : List (α × β) → Option β
  | [] => none
  | (k', v) :: rest => if k' = k then some v else getA k rest

/-- Python dict assignment `d[k] = v`: replace the value in place when the
key is present, append the new entry at the end otherwise. -/
def setA {α β : Type} [DecidableEq α] (k : α) (v : β) :
    List (α × β) → List (α × β)
  | [] => [(k, v)]
  | (k', v') :: rest =>
      if k' = k then (k, v) :: rest else (k', v') :: setA k v rest

/-- One `<th>` of the scraped page: its text (`roleheader.get_text()`)
and the `title` attributes of the anchors of its following `<td>`
(`roleheader.find_next("td").find_all("a")`), in document order. -/
structure HeaderCell where
  text : String
  links : List String
deriving DecidableEq

/-- `heroattributes[role]`: levels mapped to hero-name lists, in
insertion order. -/
abbrev LevelMap := List (Nat × List String)

/-- The accumulator `heroattributes`: roles mapped to level maps, in
insertion order. -/
abbrev Attrs := List (String × LevelMap)

/-- `webscrape.py` lines 27-29: `heroattributes[role][level] += [heroname]`
for each anchor title in turn.  The `getA`-miss fallback is unreachable:
the caller has just installed an entry for `(role, level)`. -/
def appendHeroes (role : String) (level : Nat) :
    List String → Attrs → Attrs
  | [], attrs => attrs
  | n :: rest, attrs =>
      match getA role attrs with
      | some lm =>
          appendHeroes role level rest
            (setA role (setA level ((getA level lm).getD [] ++ [n]) lm) attrs)
      | none => appendHeroes role level rest attrs

/-- `webscrape.py` lines 14-29: process one header cell — compute level
and role, reset the `(role, level)` hero list to `[]` (creating the role
entry when absent), then append each linked hero name. -/
def processHeader (attrs : Attrs) (cell : HeaderCell) : Attrs :=
  let level := levelOf cell.text
  let role := roleOf cell.text
  let attrs1 :=
    match getA role attrs with
    | some lm => setA role (setA level [] lm) attrs
    | none => attrs ++ [(role, [(level, [])])]
  appendHeroes role level cell.links attrs1

/-- `webscrape.py` lines 13-29: fold `processHeader` over every header
cell of the document, starting from the empty dict. -/
def heroattributes (doc : List HeaderCell) : Attrs :=
  doc.foldl processHeader []

/-- A value of a pivoted row dict: the hero name under the key `"Hero"`,
a strength level under a role key. -/
inductive RVal where
  | str : String → RVal
  | nat : Nat → RVal
deriving DecidableEq, Repr

/-- One row dict of `dfheroattributes`: keys in insertion order. -/
abbrev Row := List (String × RVal)

/-- `webscrape.py` lines 44-50: scan the rows for the first one whose
`"Hero"` value equals the hero name and set its role entry; append a
fresh row `{"Hero": hero, role: level}` when no row matches. -/
def updateRows (rows : List Row) (hero role : String) (level : Nat) :
    List Row :=
  match rows with
  | [] => [setA role (RVal.nat level) (setA "Hero" (RVal.str hero) [])]
  | r :: rest =>
      if getA "Hero" r = some (RVal.str hero) then
        setA role (RVal.nat level) r :: rest
      else
        r :: updateRows rest hero role level

/-- `webscrape.py` line 42: innermost loop over the heroes of one
`(role, level)` list. -/
def pivotHeroes (role : String) (level : Nat) :
    List String → List Row → List Row
  | [], rows => rows
  | h :: t, rows => pivotHeroes role level t (updateRows rows h role level)

/-- `webscrape.py` line 41: loop over the levels recorded for one role. -/
def pivotLevels (role : String) : LevelMap → List Row → List Row
  | [], rows => rows
  | (level, heroes) :: t, rows =>
      pivotLevels role t (pivotHeroes role level heroes rows)

/-- `webscrape.py` lines 35-50: loop over the roles of `heroattributes`,
accumulating the pivoted row dicts. -/
def pivotAttrs : Attrs → List Row → List Row
  | [], rows => rows
  | (role, lm) :: t, rows => pivotAttrs t (pivotLevels role lm rows)

/-- `webscrape.py` lines 33-50: the pivoted row list built from the
accumulated role dict. -/
def dfheroattributes (doc : List HeaderCell) : List Row :=
  pivotAttrs (heroattributes doc) []

/-- `webscrape.py` lines 33-37: `totalrolelist`, the roles of
`heroattributes` in iteration (= insertion) order. -/
def totalrolelist (doc : List HeaderCell) : List String :=
  (heroattributes doc).map Prod.fst

/-- `webscrape.py` lines 53-56, restricted to one row: for each role of
`totalrolelist` in order, append `(role, 0)` when the key is absent. -/
def fillRowAll : List String → Row → Row
  | [], r => r
  | role :: t, r =>
      fillRowAll t (if (getA role r).isSome then r else r ++ [(role, RVal.nat 0)])

/-- `webscrape.py` lines 53-56, one role across all rows (the inner
`for dfrow in dfheroattributes` loop). -/
def fillRole (role : String) (rows : List Row) : List Row :=
  rows.map (fun r => if (getA role r).isSome then r else r ++ [(role, RVal.nat 0)])

/-- `webscrape.py` lines 53-56: the zero-fill pass over every role of
`totalrolelist`. -/
def fillRoles : List String → List Row → List Row
  | [], rows => rows
  | role :: t, rows => fillRoles t (fillRole role rows)

/-- The fully pivoted and zero-filled row list handed to
`pd.DataFrame` in `webscrape.py` line 59. -/
def finalRows (doc : List HeaderCell) : List Row :=
  fillRoles (totalrolelist doc) (dfheroattributes doc)

/-- First-occurrence deduplication, with an accumulator of already seen
keys. -/
def dedupFirstAux (seen : List String) : List String → List String
  | [] => []
  | x :: xs =>
      if x ∈ seen then dedupFirstAux seen xs
      else x :: dedupFirstAux (x :: seen) xs

/-- `pd.DataFrame(list_of_dicts)` column inference (`webscrape.py`
line 59): the union of the row dicts' keys in order of first appearance,
scanning the rows in order. -/
def dfColumns (rows : List Row) : List String :=
  dedupFirstAux [] (rows.flatMap (fun r => r.map Prod.fst))

/-- Rendering of a cell value in the exported file. -/
def rvalToString : RVal → String
  | .str s => s
  | .nat n => toString n

/-- One data line of the exported file: the row's values in column order,
comma separated (an absent key renders as the empty field). -/
def csvLine (cols : List String) (r : Row) : String :=
  String.intercalate ","
    (cols.map (fun c =>
      match getA c r with
      | some v => rvalToString v
      | none => ""))

/-- `webscrape.py` lines 59-60: `pd.DataFrame(...).to_csv(..., index=False)`
— the header line of column names followed by one line per row. -/
def csvOutput (doc : List HeaderCell) : String :=
  let rows := finalRows doc
  let cols := dfColumns rows
  String.intercalate "," cols ++ "\n" ++
    String.join (rows.map (fun r => csvLine cols r ++ "\n"))

/-- Whether the document ever associates `hero` with `role`: some header
cell's text yields `role` and its data cell links `hero`
(spec §4.2 step 3). -/
def heroHasRole (doc : List HeaderCell) (hero role : String) : Bool :=
  doc.any (fun cell => roleOf cell.text == role && cell.links.contains hero)

/-- The first pivoted row whose `"Hero"` value is the given hero name. -/
def findRow (rows : List Row) (hero : String) : Option Row :=
  rows.find? (fun r => getA "Hero" r == some (RVal.str hero))

/-- Column order as the spec's §4.2 step 5 words it: the hero-name column
followed by the role names in the order each role is first encountered
scanning the header cells top-to-bottom. -/
def specColumns (doc : List HeaderCell) : List String :=
  "Hero" :: dedupFirstAux [] (doc.map (fun cell => roleOf cell.text))

/-! ## Association-list lemmas -/

theorem getA_setA_self {α β : Type} [DecidableEq α] (k : α) (v : β)
    (l : List (α × β)) : getA k (setA k v l) = some v := by
  induction l with
  | nil => simp [setA, getA]
  | cons p rest ih =>
      obtain ⟨k', v'⟩ := p
      by_cases h : k' = k
      · simp [setA, getA, h]
      · simp [setA, getA, h, ih]

theorem getA_setA_of_ne {α β : Type} [DecidableEq α] {k k' : α} (h : k ≠ k')
    (v : β) (l : List (α × β)) : getA k (setA k' v l) = getA k l := by
  induction l with
  | nil => simp [setA, getA, Ne.symm h]
  | cons p rest ih =>
      obtain ⟨k0, v0⟩ := p
      by_cases h0 : k0 = k'
      · subst h0
        simp [setA, getA, Ne.symm h]
      · simp [setA, getA, h0, ih]

theorem getA_append_of_some {α β : Type} [DecidableEq α] {k : α} {v : β}
    {l1 : List (α × β)} (l2 : List (α × β)) (h : getA k l1 = some v) :
    getA k (l1 ++ l2) = some v := by
  induction l1 with
  | nil => simp [getA] at h
  | cons p rest ih =>
      obtain ⟨k0, v0⟩ := p
      by_cases h0 : k0 = k
      · simp [getA, h0] at h ⊢
        exact h
      · simp [getA, h0] at h ⊢
        exact ih h

theorem getA_append_of_none {α β : Type} [DecidableEq α] {k : α}
    {l1 : List (α × β)} (l2 : List (α × β)) (h : getA k l1 = none) :
    getA k (l1 ++ l2) = getA k l2 := by
  induction l1 with
  | nil => simp
  | cons p rest ih =>
      obtain ⟨k0, v0⟩ := p
      by_cases h0 : k0 = k
      · simp [getA, h0] at h
      · simp [getA, h0] at h ⊢
        exact ih h

theorem getA_eq_some_mem {α β : Type} [DecidableEq α] {k : α} {v : β}
    {l : List (α × β)} (h : getA k l = some v) : (k, v) ∈ l := by
  induction l with
  | nil => simp [getA] at h
  | cons p rest ih =>
      obtain ⟨k0, v0⟩ := p
      by_cases h0 : k0 = k
      · subst h0
        simp [getA] at h
        simp [h]
      · simp [getA, h0] at h
        exact List.mem_cons_of_mem _ (ih h)

theorem getA_isSome_iff {α β : Type} [DecidableEq α] (k : α)
    (l : List (α × β)) : (getA k l).isSome ↔ k ∈ l.map Prod.fst := by
  induction l with
  | nil => simp [getA]
  | cons p rest ih =>
      obtain ⟨k0, v0⟩ := p
      by_cases h0 : k0 = k
      · simp [getA, h0]
      · simp [getA, h0, ih, Ne.symm h0]

theorem mem_setA {α β : Type} [DecidableEq α] {p : α × β} {k : α} {v : β}
    {l : List (α × β)} (h : p ∈ setA k v l) : p ∈ l ∨ p = (k, v) := by
  induction l with
  | nil => simp [setA] at h; simp [h]
  | cons q rest ih =>
      obtain ⟨k0, v0⟩ := q
      by_cases h0 : k0 = k
      · simp [setA, h0] at h
        rcases h with h | h
        · right; exact h
        · left; exact List.mem_cons_of_mem _ h
      · simp [setA, h0] at h
        rcases h with h | h
        · left; simp [h]
        · rcases ih h with h' | h'
          · left; exact List.mem_cons_of_mem _ h'
          · right; exact h'

theorem keys_setA_subset {α β : Type} [DecidableEq α] {k' k : α} {v : β}
    {l : List (α × β)} (h : k' ∈ (setA k v l).map Prod.fst) :
    k' = k ∨ k' ∈ l.map Prod.fst := by
  simp only [List.mem_map] at h
  obtain ⟨p, hp, hk⟩ := h
  rcases mem_setA hp with h' | h'
  · right; exact hk ▸ List.mem_map_of_mem Prod.fst h'
  · left; rw [← hk, h']

/-! ## Deduplication lemmas -/

theorem mem_dedupFirstAux (seen l : List String) (x : String) :
    x ∈ dedupFirstAux seen l ↔ x ∈ l ∧ x ∉ seen := by
  induction l generalizing seen with
  | nil => simp [dedupFirstAux]
  | cons y ys ih =>
      by_cases hy : y ∈ seen
      · simp only [dedupFirstAux, if_pos hy, ih]
        constructor
        · rintro ⟨h1, h2⟩
          exact ⟨List.mem_cons_of_mem _ h1, h2⟩
        · rintro ⟨h1, h2⟩
          rcases List.mem_cons.mp h1 with h | h
          · exact absurd (h ▸ hy) h2
          · exact ⟨h, h2⟩
      · simp only [dedupFirstAux, if_neg hy, List.mem_cons, ih]
        constructor
        · rintro (h | ⟨h1, h2⟩)
          · subst h; simp [hy]
          · simp only [List.mem_cons, not_or] at h2
            exact ⟨Or.inr h1, h2.2⟩
        · rintro ⟨h1, h2⟩
          by_cases hx : x = y
          · exact Or.inl hx
          · rcases h1 with h | h
            · exact absurd h hx
            · exact Or.inr ⟨h, by simp [List.mem_cons, hx, h2]⟩

theorem nodup_dedupFirstAux (seen l : List String) :
    (dedupFirstAux seen l).Nodup := by
  induction l generalizing seen with
  | nil => simp [dedupFirstAux]
  | cons y ys ih =>
      by_cases hy : y ∈ seen
      · simpa [dedupFirstAux, if_pos hy] using ih seen
      · simp only [dedupFirstAux, if_neg hy, List.nodup_cons]
        refine ⟨fun hmem => ?_, ih (y :: seen)⟩
        rcases (mem_dedupFirstAux (y :: seen) ys y).mp hmem with ⟨_, h2⟩
        exact h2 (List.mem_cons_self y seen)

/-! ## Zero-fill lemmas -/

theorem fillRoles_eq_map (roles : List String) (rows : List Row) :
    fillRoles roles rows = rows.map (fillRowAll roles) := by
  induction roles generalizing rows with
  | nil => simp [fillRoles, fillRowAll]
  | cons role t ih =>
      simp only [fillRoles, fillRole, ih, List.map_map]
      rfl

theorem fillRowAll_getA_of_some {k : String} {v : RVal} {r : Row}
    (roles : List String) (h : getA k r = some v) :
    getA k (fillRowAll roles r) = some v := by
  induction roles generalizing r with
  | nil => simpa [fillRowAll] using h
  | cons role t ih =>
      simp only [fillRowAll]
      by_cases hs : (getA role r).isSome
      · rw [if_pos hs]; exact ih h
      · rw [if_neg hs]
        exact ih (getA_append_of_some _ h)

theorem fillRowAll_getA_of_none_mem {k : String} {r : Row}
    {roles : List String} (h : getA k r = none) (hk : k ∈ roles) :
    getA k (fillRowAll roles r) = some (RVal.nat 0) := by
  induction roles generalizing r with
  | nil => simp at hk
  | cons role t ih =>
      simp only [fillRowAll]
      by_cases hkr : k = role
      · subst hkr
        rw [if_neg (by simp [h])]
        refine fillRowAll_getA_of_some t ?_
        rw [getA_append_of_none _ h]
        simp [getA]
      · have hk' : k ∈ t := by
          rcases List.mem_cons.mp hk with h' | h'
          · exact absurd h' hkr
          · exact h'
        by_cases hs : (getA role r).isSome
        · rw [if_pos hs]; exact ih h hk'
        · rw [if_neg hs]
          refine ih ?_ hk'
          rw [getA_append_of_none _ h]
          simp [getA, Ne.symm hkr]

theorem getA_append_cases {α β : Type} [DecidableEq α] {k : α} {v : β}
    {l1 l2 : List (α × β)} (h : getA k (l1 ++ l2) = some v) :
    getA k l1 = some v ∨ (getA k l1 = none ∧ getA k l2 = some v) := by
  induction l1 with
  | nil => right; exact ⟨by simp [getA], by simpa using h⟩
  | cons p rest ih =>
      obtain ⟨k0, v0⟩ := p
      by_cases h0 : k0 = k
      · left
        simp [getA, h0] at h ⊢
        exact h
      · simp [getA, h0] at h ⊢
        exact ih h

theorem getA_append_none_left {α β : Type} [DecidableEq α] {k : α}
    {l1 l2 : List (α × β)} (h : getA k (l1 ++ l2) = none) :
    getA k l1 = none := by
  induction l1 with
  | nil => simp [getA]
  | cons p rest ih =>
      obtain ⟨k0, v0⟩ := p
      by_cases h0 : k0 = k
      · simp [getA, h0] at h
      · simp [getA, h0] at h ⊢
        exact ih h

theorem fillRowAll_getA_cases {k : String} {v : RVal} {r : Row}
    {roles : List String} (h : getA k (fillRowAll roles r) = some v) :
    getA k r = some v ∨ (getA k r = none ∧ v = RVal.nat 0) := by
  induction roles generalizing r with
  | nil => left; simpa [fillRowAll] using h
  | cons role t ih =>
      simp only [fillRowAll] at h
      by_cases hs : (getA role r).isSome
      · rw [if_pos hs] at h
        exact ih h
      · rw [if_neg hs] at h
        rcases ih h with h' | h'
        · rcases getA_append_cases h' with h2 | ⟨h2, h3⟩
          · left; exact h2
          · simp [getA] at h3
            right
            exact ⟨h2, h3.2.symm⟩
        · rcases h' with ⟨h2, h3⟩
          right
          exact ⟨getA_append_none_left h2, h3⟩

theorem fillRowAll_keys {k : String} {r : Row} {roles : List String}
    (h : k ∈ (fillRowAll roles r).map Prod.fst) :
    k ∈ r.map Prod.fst ∨ k ∈ roles := by
  induction roles generalizing r with
  | nil => left; simpa [fillRowAll] using h
  | cons role t ih =>
      simp only [fillRowAll] at h
      by_cases hs : (getA role r).isSome
      · rw [if_pos hs] at h
        rcases ih h with h' | h'
        · left; exact h'
        · right; exact List.mem_cons_of_mem _ h'
      · rw [if_neg hs] at h
        rcases ih h with h' | h'
        · rw [List.map_append] at h'
          rcases List.mem_append.mp h' with h2 | h2
          · left; exact h2
          · simp at h2
            right; simp [h2]
        · right; exact List.mem_cons_of_mem _ h'

/-! ## Lifting row invariants through the pivot loops

`pivotAttrs` is three nested loops whose only row operation is
`updateRows`; any row property preserved by `updateRows` (under a
per-association side condition `U hero role level`) is preserved by the
whole pivot. -/

theorem pivotHeroes_lift (Q : Row → Prop) (U : String → String → Nat → Prop)
    (hU : ∀ (rows : List Row) (hh ρ : String) (lv : Nat), U hh ρ lv →
      (∀ r ∈ rows, Q r) → ∀ r' ∈ updateRows rows hh ρ lv, Q r')
    (heroes : List String) (ρ : String) (lv : Nat) (rows : List Row)
    (hher : ∀ hh ∈ heroes, U hh ρ lv) (hrows : ∀ r ∈ rows, Q r) :
    ∀ r' ∈ pivotHeroes ρ lv heroes rows, Q r' := by
  induction heroes generalizing rows with
  | nil => simpa [pivotHeroes] using hrows
  | cons x t ih =>
      simp only [pivotHeroes]
      exact ih _ (fun y hy => hher y (List.mem_cons_of_mem _ hy))
        (hU rows x ρ lv (hher x (List.mem_cons_self _ _)) hrows)

theorem pivotLevels_lift (Q : Row → Prop) (U : String → String → Nat → Prop)
    (hU : ∀ (rows : List Row) (hh ρ : String) (lv : Nat), U hh ρ lv →
      (∀ r ∈ rows, Q r) → ∀ r' ∈ updateRows rows hh ρ lv, Q r')
    (lm : LevelMap) (ρ : String) (rows : List Row)
    (hlm : ∀ p ∈ lm, ∀ hh ∈ p.2, U hh ρ p.1) (hrows : ∀ r ∈ rows, Q r) :
    ∀ r' ∈ pivotLevels ρ lm rows, Q r' := by
  induction lm generalizing rows with
  | nil => simpa [pivotLevels] using hrows
  | cons p t ih =>
      obtain ⟨lv, heroes⟩ := p
      simp only [pivotLevels]
      refine ih _ (fun q hq hh hmem => hlm q (List.mem_cons_of_mem _ hq) hh hmem) ?_
      exact pivotHeroes_lift Q U hU heroes ρ lv rows
        (fun hh hmem => hlm (lv, heroes) (List.mem_cons_self _ _) hh hmem) hrows

theorem pivotAttrs_lift (Q : Row → Prop) (U : String → String → Nat → Prop)
    (hU : ∀ (rows : List Row) (hh ρ : String) (lv : Nat), U hh ρ lv →
      (∀ r ∈ rows, Q r) → ∀ r' ∈ updateRows rows hh ρ lv, Q r')
    (attrs : Attrs) (rows : List Row)
    (hattrs : ∀ e ∈ attrs, ∀ p ∈ e.2, ∀ hh ∈ p.2, U hh e.1 p.1)
    (hrows : ∀ r ∈ rows, Q r) :
    ∀ r' ∈ pivotAttrs attrs rows, Q r' := by
  induction attrs generalizing rows with
  | nil => simpa [pivotAttrs] using hrows
  | cons e t ih =>
      obtain ⟨ρ, lm⟩ := e
      simp only [pivotAttrs]
      refine ih _ (fun e' he' p hp hh hmem =>
        hattrs e' (List.mem_cons_of_mem _ he') p hp hh hmem) ?_
      exact pivotLevels_lift Q U hU lm ρ rows
        (fun p hp hh hmem => hattrs (ρ, lm) (List.mem_cons_self _ _) p hp hh hmem)
        hrows

/-! ## Invariant: row dicts start with the `"Hero"` key -/

/-- Every pivoted row dict has `"Hero"` as its first key (the value may
be a level when a role is literally named `"Hero"`). -/
def HeroFirst (r : Row) : Prop := ∃ v t, r = ("Hero", v) :: t

theorem heroFirst_setA (k : String) (v : RVal) {r : Row} (h : HeroFirst r) :
    HeroFirst (setA k v r) := by
  obtain ⟨v0, t, rfl⟩ := h
  by_cases hk : "Hero" = k
  · subst hk
    exact ⟨v, t, by simp [setA]⟩
  · exact ⟨v0, setA k v t, by simp [setA, hk]⟩

theorem heroFirst_updateRows (rows : List Row) (hh ρ : String) (lv : Nat)
    (hrows : ∀ r ∈ rows, HeroFirst r) :
    ∀ r' ∈ updateRows rows hh ρ lv, HeroFirst r' := by
  induction rows with
  | nil =>
      intro r' hr'
      simp only [updateRows, List.mem_singleton] at hr'
      subst hr'
      exact heroFirst_setA ρ (RVal.nat lv) ⟨RVal.str hh, [], by simp [setA]⟩
  | cons r0 rest ih =>
      intro r' hr'
      simp only [updateRows] at hr'
      by_cases hmatch : getA "Hero" r0 = some (RVal.str hh)
      · rw [if_pos hmatch] at hr'
        rcases List.mem_cons.mp hr' with h1 | h1
        · subst h1
          exact heroFirst_setA ρ (RVal.nat lv) (hrows r0 (List.mem_cons_self _ _))
        · exact hrows r' (List.mem_cons_of_mem _ h1)
      · rw [if_neg hmatch] at hr'
        rcases List.mem_cons.mp hr' with h1 | h1
        · exact h1 ▸ hrows r0 (List.mem_cons_self _ _)
        · exact ih (fun r hr => hrows r (List.mem_cons_of_mem _ hr)) r' h1

theorem heroFirst_append (l : Row) {r : Row} (h : HeroFirst r) :
    HeroFirst (r ++ l) := by
  obtain ⟨v0, t, rfl⟩ := h
  exact ⟨v0, t ++ l, by simp⟩

theorem heroFirst_fillRowAll (roles : List String) {r : Row}
    (h : HeroFirst r) : HeroFirst (fillRowAll roles r) := by
  induction roles generalizing r with
  | nil => simpa [fillRowAll] using h
  | cons role t ih =>
      simp only [fillRowAll]
      by_cases hs : (getA role r).isSome
      · rw [if_pos hs]; exact ih h
      · rw [if_neg hs]; exact ih (heroFirst_append _ h)

theorem heroFirst_finalRows (doc : List HeaderCell) :
    ∀ r ∈ finalRows doc, HeroFirst r := by
  intro r hr
  rw [finalRows, fillRoles_eq_map] at hr
  rcases List.mem_map.mp hr with ⟨r0, hr0, rfl⟩
  refine heroFirst_fillRowAll _ ?_
  refine pivotAttrs_lift HeroFirst (fun _ _ _ => True)
    (fun rows hh ρ lv _ hrows => heroFirst_updateRows rows hh ρ lv hrows)
    (heroattributes doc) [] (fun _ _ _ _ _ _ => trivial) (by simp) r0 hr0

/-! ## Invariant: every row key is `"Hero"` or a pivoted role -/

/-- All keys of the row satisfy the predicate `P`. -/
def RowKeysP (P : String → Prop) (r : Row) : Prop :=
  ∀ k, k ∈ r.map Prod.fst → P k

theorem rowKeysP_updateRows (P : String → Prop) (hHero : P "Hero")
    (rows : List Row) (hh ρ : String) (lv : Nat) (hρ : P ρ)
    (hrows : ∀ r ∈ rows, RowKeysP P r) :
    ∀ r' ∈ updateRows rows hh ρ lv, RowKeysP P r' := by
  induction rows with
  | nil =>
      intro r' hr'
      simp only [updateRows, List.mem_singleton] at hr'
      subst hr'
      intro k hk
      rcases keys_setA_subset hk with h1 | h1
      · exact h1 ▸ hρ
      · rcases keys_setA_subset h1 with h2 | h2
        · exact h2 ▸ hHero
        · simp at h2
  | cons r0 rest ih =>
      intro r' hr'
      simp only [updateRows] at hr'
      by_cases hmatch : getA "Hero" r0 = some (RVal.str hh)
      · rw [if_pos hmatch] at hr'
        rcases List.mem_cons.mp hr' with h1 | h1
        · subst h1
          intro k hk
          rcases keys_setA_subset hk with h2 | h2
          · exact h2 ▸ hρ
          · exact hrows r0 (List.mem_cons_self _ _) k h2
        · exact hrows r' (List.mem_cons_of_mem _ h1)
      · rw [if_neg hmatch] at hr'
        rcases List.mem_cons.mp hr' with h1 | h1
        · exact h1 ▸ hrows r0 (List.mem_cons_self _ _)
        · exact ih (fun r hr => hrows r (List.mem_cons_of_mem _ hr)) r' h1

theorem rowKeysP_pivot (doc : List HeaderCell) :
    ∀ r ∈ dfheroattributes doc,
      RowKeysP (fun k => k = "Hero" ∨ k ∈ totalrolelist doc) r := by
  refine pivotAttrs_lift _ (fun _ ρ _ => ρ = "Hero" ∨ ρ ∈ totalrolelist doc)
    (fun rows hh ρ lv hρ hrows =>
      rowKeysP_updateRows _ (Or.inl rfl) rows hh ρ lv hρ hrows)
    (heroattributes doc) [] ?_ (by simp)
  intro e he p _ hh _
  exact Or.inr (List.mem_map_of_mem Prod.fst he)

/-! ## Invariant: role keys of a hero's row come from real associations -/

/-- Soundness of a pivoted row: any non-`"Hero"` key of a row whose
`"Hero"` value is the name `hero` is `S`-related to `hero`. -/
def RowSound (S : String → String → Prop) (r : Row) : Prop :=
  ∀ hero role, role ≠ "Hero" → getA "Hero" r = some (RVal.str hero) →
    (getA role r).isSome → S hero role

theorem rowSound_updateRows (S : String → String → Prop)
    (rows : List Row) (hh ρ : String) (lv : Nat) (hS : S hh ρ)
    (hrows : ∀ r ∈ rows, RowSound S r) :
    ∀ r' ∈ updateRows rows hh ρ lv, RowSound S r' := by
  induction rows with
  | nil =>
      intro r' hr'
      simp only [updateRows, List.mem_singleton] at hr'
      subst hr'
      intro hero role hne hHero hrole
      by_cases hρ : ρ = "Hero"
      · subst hρ
        rw [getA_setA_self] at hHero
        exact absurd hHero (by simp)
      · rw [getA_setA_of_ne (Ne.symm hρ)] at hHero
        simp only [setA, getA, if_pos rfl] at hHero
        have hh_eq : hh = hero := by
          have := Option.some.inj hHero
          exact RVal.str.inj this
        by_cases hrρ : role = ρ
        · subst hrρ
          rw [← hh_eq]
          exact hS
        · rw [getA_setA_of_ne hrρ] at hrole
          simp only [setA, getA] at hrole
          rw [if_neg (Ne.symm hne)] at hrole
          simp at hrole
  | cons r0 rest ih =>
      intro r' hr'
      simp only [updateRows] at hr'
      by_cases hmatch : getA "Hero" r0 = some (RVal.str hh)
      · rw [if_pos hmatch] at hr'
        rcases List.mem_cons.mp hr' with h1 | h1
        · subst h1
          intro hero role hne hHero hrole
          by_cases hρ : ρ = "Hero"
          · subst hρ
            rw [getA_setA_self] at hHero
            exact absurd hHero (by simp)
          · rw [getA_setA_of_ne (Ne.symm hρ)] at hHero
            have hh_eq : hh = hero := by
              rw [hmatch] at hHero
              exact RVal.str.inj (Option.some.inj hHero)
            by_cases hrρ : role = ρ
            · subst hrρ
              rw [← hh_eq]
              exact hS
            · rw [getA_setA_of_ne hrρ] at hrole
              exact hrows r0 (List.mem_cons_self _ _) hero role hne hHero hrole
        · exact hrows r' (List.mem_cons_of_mem _ h1)
      · rw [if_neg hmatch] at hr'
        rcases List.mem_cons.mp hr' with h1 | h1
        · exact h1 ▸ hrows r0 (List.mem_cons_self _ _)
        · exact ih (fun r hr => hrows r (List.mem_cons_of_mem _ hr)) r' h1

theorem rowSound_pivot (doc : List HeaderCell) (S : String → String → Prop)
    (hattrs : ∀ e ∈ heroattributes doc, ∀ p ∈ e.2, ∀ hh ∈ p.2, S hh e.1) :
    ∀ r ∈ dfheroattributes doc, RowSound S r :=
  pivotAttrs_lift (RowSound S) (fun hh ρ _ => S hh ρ)
    (fun rows hh ρ lv hU hrows => rowSound_updateRows S rows hh ρ lv hU hrows)
    (heroattributes doc) [] hattrs (by simp)

/-! ## Scrape soundness: accumulator pairs come from the document -/

/-- Some entry of the accumulator records `hero` under `role` (at some
level). -/
def pairIn (attrs : Attrs) (hero role : String) : Prop :=
  ∃ lm, (role, lm) ∈ attrs ∧ ∃ p ∈ lm, hero ∈ p.2

theorem pairIn_appendHeroes {hero role : String} (names : List String)
    (ρ : String) (lv : Nat) (attrs : Attrs)
    (h : pairIn (appendHeroes ρ lv names attrs) hero role) :
    pairIn attrs hero role ∨ (role = ρ ∧ hero ∈ names) := by
  induction names generalizing attrs with
  | nil => left; simpa [appendHeroes] using h
  | cons n rest ih =>
      simp only [appendHeroes] at h
      cases hg : getA ρ attrs with
      | none =>
          rw [hg] at h
          rcases ih _ h with h' | ⟨h1, h2⟩
          · left; exact h'
          · right; exact ⟨h1, List.mem_cons_of_mem _ h2⟩
      | some lm =>
          rw [hg] at h
          rcases ih _ h with h' | ⟨h1, h2⟩
          · obtain ⟨lm', hmem, p, hp, hhero⟩ := h'
            rcases mem_setA hmem with hin | heq
            · left; exact ⟨lm', hin, p, hp, hhero⟩
            · rw [Prod.mk.injEq] at heq
              obtain ⟨hrole, hlm'⟩ := heq
              subst hlm'
              rcases mem_setA hp with hin2 | heq2
              · left
                exact ⟨lm, by rw [hrole]; exact getA_eq_some_mem hg, p, hin2, hhero⟩
              · subst heq2
                rcases List.mem_append.mp hhero with hcur | hn
                · cases hgl : getA lv lm with
                  | none => rw [hgl] at hcur; simp at hcur
                  | some c =>
                      rw [hgl] at hcur
                      simp only [Option.getD_some] at hcur
                      left
                      exact ⟨lm, by rw [hrole]; exact getA_eq_some_mem hg,
                        (lv, c), getA_eq_some_mem hgl, hcur⟩
                · simp only [List.mem_singleton] at hn
                  right
                  exact ⟨hrole, by rw [hn]; exact List.mem_cons_self _ _⟩
          · right; exact ⟨h1, List.mem_cons_of_mem _ h2⟩

theorem pairIn_processHeader {hero role : String} (attrs : Attrs)
    (cell : HeaderCell) (h : pairIn (processHeader attrs cell) hero role) :
    pairIn attrs hero role ∨ (role = roleOf cell.text ∧ hero ∈ cell.links) := by
  simp only [processHeader] at h
  cases hg : getA (roleOf cell.text) attrs with
  | some lm =>
      rw [hg] at h
      rcases pairIn_appendHeroes cell.links _ _ _ h with h' | h'
      · obtain ⟨lm', hmem, p, hp, hhero⟩ := h'
        rcases mem_setA hmem with hin | heq
        · left; exact ⟨lm', hin, p, hp, hhero⟩
        · rw [Prod.mk.injEq] at heq
          obtain ⟨hrole, hlm'⟩ := heq
          subst hlm'
          rcases mem_setA hp with hin2 | heq2
          · left
            exact ⟨lm, by rw [hrole]; exact getA_eq_some_mem hg, p, hin2, hhero⟩
          · subst heq2
            simp at hhero
      · right; exact h'
  | none =>
      rw [hg] at h
      rcases pairIn_appendHeroes cell.links _ _ _ h with h' | h'
      · obtain ⟨lm', hmem, p, hp, hhero⟩ := h'
        rcases List.mem_append.mp hmem with hin | hnew
        · left; exact ⟨lm', hin, p, hp, hhero⟩
        · simp only [List.mem_singleton, Prod.mk.injEq] at hnew
          obtain ⟨hrole, hlm'⟩ := hnew
          subst hlm'
          simp only [List.mem_singleton] at hp
          rw [hp] at hhero
          simp at hhero
      · right; exact h'

theorem pairIn_foldl {hero role : String} (cells : List HeaderCell) :
    ∀ attrs0 : Attrs,
      pairIn (cells.foldl processHeader attrs0) hero role →
      pairIn attrs0 hero role ∨
        ∃ cell ∈ cells, role = roleOf cell.text ∧ hero ∈ cell.links := by
  induction cells with
  | nil => intro attrs0 h; left; simpa using h
  | cons c t ih =>
      intro attrs0 h
      rw [List.foldl_cons] at h
      rcases ih _ h with h' | ⟨cell, hc, hrest⟩
      · rcases pairIn_processHeader attrs0 c h' with h2 | h2
        · left; exact h2
        · right; exact ⟨c, List.mem_cons_self _ _, h2⟩
      · right; exact ⟨cell, List.mem_cons_of_mem _ hc, hrest⟩

theorem pairIn_heroattributes {hero role : String} (doc : List HeaderCell)
    (h : pairIn (heroattributes doc) hero role) :
    heroHasRole doc hero role = true := by
  rcases pairIn_foldl doc [] h with h' | ⟨cell, hc, hrole, hhero⟩
  · obtain ⟨lm, hmem, _⟩ := h'
    simp at hmem
  · simp only [heroHasRole, List.any_eq_true]
    refine ⟨cell, hc, ?_⟩
    rw [Bool.and_eq_true, beq_iff_eq]
    exact ⟨hrole.symm, by simpa using hhero⟩

/-! ### Claim C4: level and role extraction from a header cell -/

theorem pyCountChar_eq_count (c : Char) (l : List Char) :
    pyCountChar c l = l.count c := by
  induction l with
  | nil => simp [pyCountChar]
  | cons x xs ih =>
      by_cases h : x = c
      · simp [pyCountChar, h, ih, List.count_cons]
        omega
      · simp [pyCountChar, h, ih, List.count_cons]

theorem pyRemoveChar_eq_filter (c : Char) (l : List Char) :
    pyRemoveChar c l = l.filter (fun x => x ≠ c) := by
  induction l with
  | nil => simp [pyRemoveChar]
  | cons x xs ih =>
      by_cases h : x = c
      · simp [pyRemoveChar, h, ih, List.filter_cons]
      · simp [pyRemoveChar, h, ih, List.filter_cons]

/-- C4: for every header-cell text, the extracted strength level equals
the number of occurrences of the marker glyph `■`, and the extracted role
name equals the text with every `■` removed and surrounding whitespace
stripped. -/
theorem levelOf_roleOf_spec (s : String) :
    levelOf s = s.data.count glyph ∧
      roleOf s = pyStrip (String.mk (s.data.filter (fun x => x ≠ glyph))) :=
  ⟨pyCountChar_eq_count glyph s.data,
    by rw [roleOf, pyRemoveChar_eq_filter]⟩

/-! ### Claim C5: two levels of the same role in the pivoted output -/

/-- The spec's pivot test scenario: a `"Carry ■■■"` header whose data
cell links "Hero A", a later `"Carry ■"` header (in another table
section) whose data cell links "Hero B". -/
def docCarryLevels : List HeaderCell :=
  [⟨"Carry ■■■", ["Hero A"]⟩, ⟨"Support ■■", ["Hero C"]⟩,
    ⟨"Carry ■", ["Hero B"]⟩]

/-- C5: in the pivoted output of that document, the row for "Hero A" has
Carry = 3 and the row for "Hero B" has Carry = 1. -/
theorem carry_levels_in_output :
    (findRow (finalRows docCarryLevels) "Hero A").bind (getA "Carry") =
        some (RVal.nat 3) ∧
      (findRow (finalRows docCarryLevels) "Hero B").bind (getA "Carry") =
        some (RVal.nat 1) := by
  constructor <;> rfl

/-! ### Claim C8: determinism of the Role Scraper -/

/-- C8: the exported file is a pure function of the fetched page — two
runs over the same document produce byte-identical output. -/
theorem csvOutput_deterministic (d1 d2 : List HeaderCell) (h : d1 = d2) :
    csvOutput d1 = csvOutput d2 := by
  rw [h]

/-- C8 (witness): two runs over the concrete scenario document agree. -/
theorem csvOutput_deterministic_witness :
    csvOutput docCarryLevels = csvOutput docCarryLevels :=
  csvOutput_deterministic docCarryLevels docCarryLevels rfl

/-! ### Claim C9: a repeated (role, level) header discards earlier heroes -/

theorem appendHeroes_getA (names : List String) (ρ : String) (lv : Nat)
    (attrs : Attrs) (lm : LevelMap) (cur : List String)
    (h1 : getA ρ attrs = some lm) (h2 : getA lv lm = some cur) :
    ∃ lm', getA ρ (appendHeroes ρ lv names attrs) = some lm' ∧
      getA lv lm' = some (cur ++ names) := by
  induction names generalizing attrs lm cur with
  | nil => exact ⟨lm, by simpa [appendHeroes] using h1, by simpa using h2⟩
  | cons n rest ih =>
      simp only [appendHeroes, h1, h2, Option.getD_some]
      obtain ⟨lm', hg, hl⟩ := ih (setA ρ (setA lv (cur ++ [n]) lm) attrs)
        (setA lv (cur ++ [n]) lm) (cur ++ [n]) (getA_setA_self _ _ _)
        (getA_setA_self _ _ _)
      exact ⟨lm', hg, by simpa [List.append_assoc] using hl⟩

/-- C9: when a header cell's (role, level) pair already has an entry in
the accumulator (for example because an earlier header cell produced the
same pair), processing the cell resets that entry and leaves exactly the
cell's own linked heroes there: the earlier heroes are discarded. -/
theorem processHeader_resets (attrs : Attrs) (cell : HeaderCell)
    (lm0 : LevelMap) (hs0 : List String)
    (h1 : getA (roleOf cell.text) attrs = some lm0)
    (_h2 : getA (levelOf cell.text) lm0 = some hs0) :
    (getA (roleOf cell.text) (processHeader attrs cell)).bind
      (getA (levelOf cell.text)) = some cell.links := by
  simp only [processHeader, h1]
  obtain ⟨lm, hg, hl⟩ := appendHeroes_getA cell.links (roleOf cell.text)
    (levelOf cell.text) (setA (roleOf cell.text)
      (setA (levelOf cell.text) [] lm0) attrs)
    (setA (levelOf cell.text) [] lm0) [] (getA_setA_self _ _ _)
    (getA_setA_self _ _ _)
  rw [hg]
  simpa using hl

/-- C9 (witness): an accumulator already holding `["Old"]` at
(Carry, 1) ends up holding exactly `["New"]` after a `"Carry ■"` header
linking "New" is processed. -/
theorem processHeader_resets_witness :
    getA (roleOf "Carry ■") [("Carry", [(1, ["Old"])])] = some [(1, ["Old"])] ∧
      getA (levelOf "Carry ■") [(1, ["Old"])] = some ["Old"] ∧
      (getA (roleOf "Carry ■")
          (processHeader [("Carry", [(1, ["Old"])])] ⟨"Carry ■", ["New"]⟩)).bind
        (getA (levelOf "Carry ■")) = some ["New"] :=
  ⟨by decide, by decide,
    processHeader_resets [("Carry", [(1, ["Old"])])] ⟨"Carry ■", ["New"]⟩
      [(1, ["Old"])] ["Old"] (by decide) (by decide)⟩

/-! ### Claim C10: a later association overwrites the recorded level -/

/-- C10: if the first row for `hero` currently records level `l1` for
`role`, then after the pivot loop processes a later association of the
same hero with the same role at level `level`, the row records `level` —
the earlier level is overwritten (`webscrape.py` lines 44-47). -/
theorem updateRows_overwrites (rows : List Row) (hero role : String)
    (level l1 : Nat) (r : Row)
    (hfind : findRow rows hero = some r)
    (hold : getA role r = some (RVal.nat l1)) :
    (findRow (updateRows rows hero role level) hero).bind (getA role) =
      some (RVal.nat level) := by
  induction rows with
  | nil => simp [findRow] at hfind
  | cons r0 rest ih =>
      by_cases hp : getA "Hero" r0 = some (RVal.str hero)
      · have hr : r = r0 := by
          rw [findRow, List.find?_cons_of_pos _ (by simp [hp])] at hfind
          exact (Option.some.inj hfind).symm
        subst hr
        have hne : role ≠ "Hero" := by
          intro hEq
          rw [hEq] at hold
          rw [hold] at hp
          exact absurd (Option.some.inj hp) (by simp)
        simp only [updateRows, if_pos hp]
        rw [findRow, List.find?_cons_of_pos _
          (by simp [getA_setA_of_ne (Ne.symm hne), hp])]
        simpa using getA_setA_self role (RVal.nat level) r
      · have hfind' : findRow rest hero = some r := by
          rw [findRow, List.find?_cons_of_neg _ (by simp [hp])] at hfind
          exact hfind
        simp only [updateRows, if_neg hp]
        rw [findRow, List.find?_cons_of_neg _ (by simp [hp])]
        exact ih hfind'

/-- C10 (witness): a row recording Carry = 3 for "Hero A" records
Carry = 1 after the later association at level 1 is processed. -/
theorem updateRows_overwrites_witness :
    findRow [[("Hero", RVal.str "Hero A"), ("Carry", RVal.nat 3)]] "Hero A" =
        some [("Hero", RVal.str "Hero A"), ("Carry", RVal.nat 3)] ∧
      (findRow (updateRows [[("Hero", RVal.str "Hero A"), ("Carry", RVal.nat 3)]]
          "Hero A" "Carry" 1) "Hero A").bind (getA "Carry") =
        some (RVal.nat 1) :=
  ⟨by decide,
    updateRows_overwrites [[("Hero", RVal.str "Hero A"), ("Carry", RVal.nat 3)]]
      "Hero A" "Carry" 1 3 [("Hero", RVal.str "Hero A"), ("Carry", RVal.nat 3)]
      (by decide) (by decide)⟩

/-! ### Claim C6: zero fill of unassociated (hero, role) pairs -/

/-- Document exposing the collision between a role literally named
"Hero" and the hero-name column of the row dicts. -/
def docHeroRole : List HeaderCell := [⟨"Carry ■", ["X"]⟩, ⟨"Hero ■", ["Y"]⟩]

/-- C6 (counterexample): in `docHeroRole` the role "Hero" is observed,
hero "X" is never associated with it, yet X's row value under the "Hero"
column is the hero name "X", not the integer 0 — the role key collides
with the hero-name key of the row dict. -/
theorem zero_fill_counterexample :
    [("Hero", RVal.str "X"), ("Carry", RVal.nat 1)] ∈ finalRows docHeroRole ∧
      "Hero" ∈ totalrolelist docHeroRole ∧
      heroHasRole docHeroRole "X" "Hero" = false ∧
      getA "Hero" [("Hero", RVal.str "X"), ("Carry", RVal.nat 1)] =
        some (RVal.str "X") ∧
      ¬ getA "Hero" [("Hero", RVal.str "X"), ("Carry", RVal.nat 1)] =
        some (RVal.nat 0) := by
  decide

/-- C6 (amended): for every hero row of the output and every observed
role column other than one literally named "Hero": if the document never
associates the hero with that role, the row's entry for that role column
is present and is exactly the integer 0. -/
theorem zero_fill_of_not_associated (doc : List HeaderCell) (r : Row)
    (hero role : String) (hr : r ∈ finalRows doc)
    (hHero : getA "Hero" r = some (RVal.str hero))
    (hrole : role ∈ totalrolelist doc) (hne : role ≠ "Hero")
    (hnot : heroHasRole doc hero role = false) :
    getA role r = some (RVal.nat 0) := by
  rw [finalRows, fillRoles_eq_map] at hr
  rcases List.mem_map.mp hr with ⟨r0, hr0, rfl⟩
  have hHero0 : getA "Hero" r0 = some (RVal.str hero) := by
    rcases fillRowAll_getA_cases hHero with h' | ⟨_, h2⟩
    · exact h'
    · exact absurd h2 (by simp)
  have hsound : RowSound (fun hh ρ => heroHasRole doc hh ρ = true) r0 :=
    rowSound_pivot doc _
      (fun e he p hp hh hmem =>
        pairIn_heroattributes doc ⟨e.2, by simpa using he, p, hp, hmem⟩)
      r0 hr0
  have hnone : getA role r0 = none := by
    cases hg : getA role r0 with
    | none => rfl
    | some v =>
        have htrue : heroHasRole doc hero role = true :=
          hsound hero role hne hHero0 (by simp [hg])
        rw [hnot] at htrue
        exact absurd htrue (by simp)
  exact fillRowAll_getA_of_none_mem hnone hrole

/-- Document for the C6 and C7 witnesses: two roles, two heroes, each
hero associated with only one of the roles. -/
def docZeroFill : List HeaderCell :=
  [⟨"Carry ■", ["A"]⟩, ⟨"Support ■■", ["B"]⟩]

/-- C6 (witness): hero "B" is never associated with "Carry"; its output
row carries Carry = 0. -/
theorem zero_fill_witness :
    [("Hero", RVal.str "B"), ("Support", RVal.nat 2), ("Carry", RVal.nat 0)] ∈
        finalRows docZeroFill ∧
      heroHasRole docZeroFill "B" "Carry" = false ∧
      getA "Carry" [("Hero", RVal.str "B"), ("Support", RVal.nat 2),
        ("Carry", RVal.nat 0)] = some (RVal.nat 0) :=
  ⟨by decide, by decide,
    zero_fill_of_not_associated docZeroFill
      [("Hero", RVal.str "B"), ("Support", RVal.nat 2), ("Carry", RVal.nat 0)]
      "B" "Carry" (by decide) (by decide) (by decide) (by decide) (by decide)⟩

/-! ### Claim C7: column order of the exported file -/

/-- Document exposing the column-order divergence: "Hero A" appears under
Carry and later under Mid, "Hero B" under Support only, so A's row dict
lists Mid before Support ever appears in any row. -/
def docColumnOrder : List HeaderCell :=
  [⟨"Carry ■", ["Hero A"]⟩, ⟨"Support ■", ["Hero B"]⟩, ⟨"Mid ■", ["Hero A"]⟩]

/-- C7 (counterexample): the exported column order is the order of first
appearance across the pivoted row dicts ("Hero", Carry, Mid, Support),
not the order roles are first encountered scanning header cells
top-to-bottom ("Hero", Carry, Support, Mid). -/
theorem column_order_counterexample :
    dfColumns (finalRows docColumnOrder) = ["Hero", "Carry", "Mid", "Support"] ∧
      specColumns docColumnOrder = ["Hero", "Carry", "Support", "Mid"] ∧
      ¬ dfColumns (finalRows docColumnOrder) = specColumns docColumnOrder := by
  decide

theorem dfColumns_cons_heroFirst (v : RVal) (t : Row) (rest : List Row) :
    dfColumns ((("Hero", v) :: t) :: rest) =
      "Hero" :: dedupFirstAux ["Hero"]
        (t.map Prod.fst ++ rest.flatMap (fun r => r.map Prod.fst)) := by
  simp [dfColumns, dedupFirstAux, List.flatMap_def]

/-- C7 (amended): when the output has at least one hero row, the header
row starts with the hero-name column "Hero", repeats no column, and its
columns are exactly "Hero" together with every observed role — but their
order is first appearance across the pivoted row dicts, which can differ
from the top-to-bottom header-scan order (see the counterexample). -/
theorem columns_content (doc : List HeaderCell) (hne : finalRows doc ≠ []) :
    (dfColumns (finalRows doc)).head? = some "Hero" ∧
      (dfColumns (finalRows doc)).Nodup ∧
      ∀ k, k ∈ dfColumns (finalRows doc) ↔
        (k = "Hero" ∨ k ∈ totalrolelist doc) := by
  have hmap : finalRows doc =
      (dfheroattributes doc).map (fillRowAll (totalrolelist doc)) := by
    rw [finalRows, fillRoles_eq_map]
  refine ⟨?_, nodup_dedupFirstAux _ _, ?_⟩
  · cases hrows : finalRows doc with
    | nil => exact absurd hrows hne
    | cons r1 rest =>
        obtain ⟨v, t, hr1⟩ := heroFirst_finalRows doc r1
          (by rw [hrows]; exact List.mem_cons_self _ _)
        rw [hr1, dfColumns_cons_heroFirst]
        rfl
  · intro k
    rw [dfColumns, mem_dedupFirstAux]
    simp only [List.mem_flatMap, List.not_mem_nil, not_false_iff, and_true]
    constructor
    · rintro ⟨r, hr, hk⟩
      have hr' := hr
      rw [hmap] at hr'
      rcases List.mem_map.mp hr' with ⟨r0, hr0, rfl⟩
      rcases fillRowAll_keys hk with hk0 | hk0
      · exact rowKeysP_pivot doc r0 hr0 k hk0
      · exact Or.inr hk0
    · intro hk
      cases hrows : finalRows doc with
      | nil => exact absurd hrows hne
      | cons r1 rest =>
          have hr1mem : r1 ∈ finalRows doc := by
            rw [hrows]; exact List.mem_cons_self _ _
          rcases hk with hk | hk
          · obtain ⟨v, t, hr1⟩ := heroFirst_finalRows doc r1 hr1mem
            refine ⟨r1, List.mem_cons_self _ _, ?_⟩
            rw [hr1, hk]
            exact List.mem_cons_self _ _
          · have hr1' := hr1mem
            rw [hmap] at hr1'
            rcases List.mem_map.mp hr1' with ⟨r0, hr0, hfill⟩
            refine ⟨r1, List.mem_cons_self _ _, ?_⟩
            rw [← getA_isSome_iff]
            rw [← hfill]
            cases hg : getA k r0 with
            | some v => rw [fillRowAll_getA_of_some _ hg]; rfl
            | none => rw [fillRowAll_getA_of_none_mem hg hk]; rfl

/-- C7 (witness): for the two-role document, the header starts with
"Hero" and "Support" is a column because it is an observed role. -/
theorem columns_content_witness :
    finalRows docZeroFill ≠ [] ∧
      (dfColumns (finalRows docZeroFill)).head? = some "Hero" ∧
      ("Support" ∈ dfColumns (finalRows docZeroFill) ↔
        ("Support" = "Hero" ∨ "Support" ∈ totalrolelist docZeroFill)) :=
  ⟨by decide, (columns_content docZeroFill (by decide)).1,
    (columns_content docZeroFill (by decide)).2.2 "Support"⟩

end DotaAnalysis
